import Mathlib

/-!
# Verification of the staking-pool accounting core

A shallow embedding of `src/staking-pool/src/internal.rs`: the share-based
staking ledger (deposit / stake / unstake / withdraw / ping) of the
delegated-staking contract.  Token amounts and share counts are `u128` values
in the source and are modelled as `ℕ` together with the explicit saturating
operations (`saturating_add` / `saturating_sub`) the source uses.  The wide
`U256` intermediate of the conversion functions is exact in `ℕ`; its final
downcast to the 128-bit result domain is modelled as reduction `% 2 ^ 128`.
Failure of an operation (a Rust `assert!` panic, which the host rolls back
atomically) is modelled by returning `none`.
-/

namespace StakingPool

/-- `2 ^ 128`, the number of values of the `u128` representation domain. -/
def U128LIM : ℕ := 2 ^ 128

/-- `u128::saturating_add`: addition clamped at `u128::MAX = 2 ^ 128 - 1`. -/
def satAdd (a b : ℕ) : ℕ := min (a + b) (U128LIM - 1)

/-- `u128::saturating_sub`: subtraction clamped at `0` (this is exactly
truncated subtraction on `ℕ`). -/
def satSub (a b : ℕ) : ℕ := a - b

/-- Modelled from the spec: the unstake unlock-delay policy constant
`UNLOCK_DELAY_EPOCHS` ("e.g. 4 epochs").  The constant `NUM_EPOCHS_TO_UNLOCK`
referenced by `inner_unstake` is declared in the crate's `lib.rs`, which is
not among the provided sources. -/
def NUM_EPOCHS_TO_UNLOCK : ℕ := 4

/-- Account identifiers; only decidable equality of identifiers matters to
the accounting core, so they are modelled as `ℕ`. -/
abbrev AccountId := ℕ

/-- Per-delegator record (`Account` in the source): unstaked balance, stake
shares, and the epoch at which the unstaked balance becomes withdrawable. -/
structure Account where
  unstaked : ℕ
  stake_shares : ℕ
  unstaked_available_epoch_height : ℕ
deriving DecidableEq

/-- `Account::default()`: the all-zero record. -/
def Account.default0 : Account := ⟨0, 0, 0⟩

/-- The contract's singleton state (`StakingContract` in the source), with the
persistent account map modelled as an association list.  The reward fee
fraction is split into its numerator and denominator. -/
structure StakingContract where
  total_staked_balance : ℕ
  total_stake_shares : ℕ
  last_total_balance : ℕ
  last_epoch_height : ℕ
  paused : Bool
  owner_id : AccountId
  reward_fee_num : ℕ
  reward_fee_den : ℕ
  accounts : List (AccountId × Account)
deriving DecidableEq

/-- Lookup in the persistent account map. -/
def lookupA : List (AccountId × Account) → AccountId → Option Account
  | [], _ => none
  | p :: rest, id => if p.1 = id then some p.2 else lookupA rest id

/-- Removal from the persistent account map (`self.accounts.remove`). -/
def removeA (m : List (AccountId × Account)) (id : AccountId) :
    List (AccountId × Account) :=
  m.filter (fun p => p.1 != id)

/-- Insertion (upsert) into the persistent account map
(`self.accounts.insert`). -/
def insertA (m : List (AccountId × Account)) (id : AccountId) (a : Account) :
    List (AccountId × Account) :=
  (id, a) :: removeA m id

/-- `internal_get_account`: the stored record, or the zero default when the
account is absent. -/
def internal_get_account (c : StakingContract) (id : AccountId) : Account :=
  (lookupA c.accounts id).getD Account.default0

/-- `internal_save_account`: upsert the record, unless both balances are zero,
in which case any stored entry is removed to release storage. -/
def internal_save_account (c : StakingContract) (id : AccountId) (a : Account) :
    StakingContract :=
  if a.unstaked > 0 ∨ a.stake_shares > 0 then
    { c with accounts := insertA c.accounts id a }
  else
    { c with accounts := removeA c.accounts id }

/-- `num_shares_from_staked_amount_rounded_down`:
`floor(total_stake_shares * amount / total_staked_balance)`, computed through
an exact 256-bit intermediate and downcast to the 128-bit domain; fails
(`assert!`) when `total_staked_balance = 0`. -/
def num_shares_from_staked_amount_rounded_down (c : StakingContract)
    (amount : ℕ) : Option ℕ :=
  if c.total_staked_balance = 0 then none
  else some ((c.total_stake_shares * amount / c.total_staked_balance) % U128LIM)

/-- `num_shares_from_staked_amount_rounded_up`: rounding-up division done as
`(a + b - 1) / b` on the exact 256-bit intermediate; fails when
`total_staked_balance = 0`. -/
def num_shares_from_staked_amount_rounded_up (c : StakingContract)
    (amount : ℕ) : Option ℕ :=
  if c.total_staked_balance = 0 then none
  else some (((c.total_stake_shares * amount + (c.total_staked_balance - 1)) /
      c.total_staked_balance) % U128LIM)

/-- `staked_amount_from_num_shares_rounded_down`:
`floor(total_staked_balance * num_shares / total_stake_shares)`; fails when
`total_stake_shares = 0`. -/
def staked_amount_from_num_shares_rounded_down (c : StakingContract)
    (num_shares : ℕ) : Option ℕ :=
  if c.total_stake_shares = 0 then none
  else some ((c.total_staked_balance * num_shares / c.total_stake_shares) % U128LIM)

/-- `staked_amount_from_num_shares_rounded_up`: rounding-up variant; fails when
`total_stake_shares = 0`. -/
def staked_amount_from_num_shares_rounded_up (c : StakingContract)
    (num_shares : ℕ) : Option ℕ :=
  if c.total_stake_shares = 0 then none
  else some (((c.total_staked_balance * num_shares + (c.total_stake_shares - 1)) /
      c.total_stake_shares) % U128LIM)

/-- `internal_deposit`: credits the attached deposit to the caller's unstaked
balance and to `last_total_balance`.  The source contains no positivity check
and no failure path, so the result is always `some`. -/
def internal_deposit (c : StakingContract) (account_id : AccountId)
    (amount : ℕ) : Option StakingContract :=
  let account := internal_get_account c account_id
  let account1 := { account with unstaked := satAdd account.unstaked amount }
  let c1 := internal_save_account c account_id account1
  some { c1 with last_total_balance := satAdd c1.last_total_balance amount }

/-- `internal_withdraw`: moves `amount` out of the caller's unstaked balance
once the unlock delay has elapsed, emits the token transfer to the caller, and
reduces `last_total_balance`.  Each `assert!` is a `none` branch. -/
def internal_withdraw (c : StakingContract) (account_id : AccountId)
    (epoch_height amount : ℕ) : Option (StakingContract × (AccountId × ℕ)) :=
  if amount = 0 then none else
  let account := internal_get_account c account_id
  if account.unstaked < amount then none else
  if epoch_height < account.unstaked_available_epoch_height then none else
  let account1 := { account with unstaked := satSub account.unstaked amount }
  let c1 := internal_save_account c account_id account1
  some ({ c1 with last_total_balance := satSub c1.last_total_balance amount },
    (account_id, amount))

/-- `internal_stake`: converts `amount` into shares (rounded down), charges
the account the rounded-down amount for those shares, and grows the totals by
the rounded-up amount so the share price never decreases. -/
def internal_stake (c : StakingContract) (account_id : AccountId)
    (amount : ℕ) : Option StakingContract :=
  if amount = 0 then none else
  let account := internal_get_account c account_id
  match num_shares_from_staked_amount_rounded_down c amount with
  | none => none
  | some num_shares =>
    if num_shares = 0 then none else
    match staked_amount_from_num_shares_rounded_down c num_shares with
    | none => none
    | some charge_amount =>
      if charge_amount = 0 then none else
      if account.unstaked < charge_amount then none else
      let account1 := { account with
        unstaked := satSub account.unstaked charge_amount,
        stake_shares := satAdd account.stake_shares num_shares }
      let c1 := internal_save_account c account_id account1
      match staked_amount_from_num_shares_rounded_up c1 num_shares with
      | none => none
      | some stake_amount =>
        some { c1 with
          total_staked_balance := satAdd c1.total_staked_balance stake_amount,
          total_stake_shares := satAdd c1.total_stake_shares num_shares }

/-- `inner_unstake`: converts `amount` into shares (rounded up), credits the
account the rounded-up receivable amount with a fresh unlock height, and
shrinks the totals by the rounded-down amount.  Note that the source adds
(`saturating_add`) `num_shares` to `account.stake_shares` instead of
subtracting. -/
def inner_unstake (c : StakingContract) (account_id : AccountId)
    (epoch_height amount : ℕ) : Option StakingContract :=
  if amount = 0 then none else
  let account := internal_get_account c account_id
  if c.total_staked_balance = 0 then none else
  match num_shares_from_staked_amount_rounded_up c amount with
  | none => none
  | some num_shares =>
    if num_shares = 0 then none else
    if account.stake_shares < num_shares then none else
    match staked_amount_from_num_shares_rounded_up c num_shares with
    | none => none
    | some receive_amount =>
      if receive_amount = 0 then none else
      let account1 := { account with
        stake_shares := satAdd account.stake_shares num_shares,
        unstaked := satAdd account.unstaked receive_amount,
        unstaked_available_epoch_height := epoch_height + NUM_EPOCHS_TO_UNLOCK }
      let c1 := internal_save_account c account_id account1
      match staked_amount_from_num_shares_rounded_down c1 num_shares with
      | none => none
      | some unstake_amount =>
        some { c1 with
          total_staked_balance := satSub c1.total_staked_balance unstake_amount,
          total_stake_shares := satSub c1.total_stake_shares num_shares }

/-- `internal_ping`: the per-epoch reward-settlement step.  Returns the new
state and the flag the source returns (`false` when the epoch is unchanged).
The owner fee multiply (`RewardFeeFraction::multiply`, declared in the crate's
`lib.rs` which is not among the provided sources) is modelled from the spec as
the rounded-down integer multiply-then-divide `num * reward / den`, trapping
on a zero denominator like the source's `U256` division would. -/
def internal_ping (c : StakingContract)
    (epoch_height locked_balance account_balance attached_deposit : ℕ) :
    Option (StakingContract × Bool) :=
  if c.last_epoch_height = epoch_height then some (c, false) else
  let c1 := { c with last_epoch_height := epoch_height }
  let total_balance := satSub (satAdd locked_balance account_balance) attached_deposit
  if total_balance < c1.last_total_balance then none else
  let total_reward := satSub total_balance c1.last_total_balance
  if total_reward = 0 then some ({ c1 with last_total_balance := total_balance }, true) else
  if c1.reward_fee_den = 0 then none else
  let owners_fee := c1.reward_fee_num * total_reward / c1.reward_fee_den
  let remaining_reward := satSub total_reward owners_fee
  let c2 := { c1 with
    total_staked_balance := satAdd c1.total_staked_balance remaining_reward }
  match num_shares_from_staked_amount_rounded_down c2 owners_fee with
  | none => none
  | some num_shares =>
    let c3 :=
      if num_shares ≠ 0 then
        let account := internal_get_account c2 c2.owner_id
        let account1 := { account with
          stake_shares := satAdd account.stake_shares num_shares }
        let c2a := internal_save_account c2 c2.owner_id account1
        { c2a with total_stake_shares := satAdd c2a.total_stake_shares num_shares }
      else c2
    let c4 := { c3 with
      total_staked_balance := satAdd c3.total_staked_balance owners_fee }
    some ({ c4 with last_total_balance := total_balance }, true)

/-- The state the host persists after running `internal_ping`: a panic
(`none`) rolls every mutation back, leaving the pre-call state. -/
def pingRun (c : StakingContract)
    (epoch_height locked_balance account_balance attached_deposit : ℕ) :
    StakingContract :=
  match internal_ping c epoch_height locked_balance account_balance attached_deposit with
  | none => c
  | some (c1, _) => c1

/-- The state the host persists after a state-returning operation: a panic
(`none`) rolls every mutation back, leaving the pre-call state. -/
def hostRun (c : StakingContract) (r : Option StakingContract) : StakingContract :=
  r.getD c

/-- The state the host persists after `internal_withdraw` (whose success also
carries the emitted transfer). -/
def hostRunW (c : StakingContract)
    (r : Option (StakingContract × (AccountId × ℕ))) : StakingContract :=
  match r with
  | none => c
  | some (c1, _) => c1

/-- The spec's `sharesFromAmount`, written from the spec's words for the
refinement comparison: the exact floor (`roundUp = false`) or ceiling
(`roundUp = true`) of the rational `amount * total_stake_shares /
total_staked_balance`. -/
def sharesFromAmountSpec (c : StakingContract) (amount : ℕ) (roundUp : Bool) : ℕ :=
  if roundUp then
    ⌈((c.total_stake_shares * amount : ℕ) : ℚ) / ((c.total_staked_balance : ℕ) : ℚ)⌉₊
  else
    ⌊((c.total_stake_shares * amount : ℕ) : ℚ) / ((c.total_staked_balance : ℕ) : ℚ)⌋₊

/-- The spec's `amountFromShares`, written from the spec's words for the
refinement comparison: the exact floor or ceiling of the rational
`shares * total_staked_balance / total_stake_shares`. -/
def amountFromSharesSpec (c : StakingContract) (num_shares : ℕ) (roundUp : Bool) : ℕ :=
  if roundUp then
    ⌈((c.total_staked_balance * num_shares : ℕ) : ℚ) / ((c.total_stake_shares : ℕ) : ℚ)⌉₊
  else
    ⌊((c.total_staked_balance * num_shares : ℕ) : ℚ) / ((c.total_stake_shares : ℕ) : ℚ)⌋₊

/-- Representability of a state in the source's `u128` domain: every stored
token amount and share count is below `2 ^ 128`. -/
def wfBounds (c : StakingContract) : Prop :=
  c.total_staked_balance < U128LIM ∧ c.total_stake_shares < U128LIM ∧
  c.last_total_balance < U128LIM ∧
  ∀ p ∈ c.accounts, p.2.unstaked < U128LIM ∧ p.2.stake_shares < U128LIM

instance (c : StakingContract) : Decidable (wfBounds c) := by
  unfold wfBounds
  infer_instance

/-! ## Basic arithmetic lemmas -/

lemma U128LIM_pos : 0 < U128LIM := by
  unfold U128LIM; positivity

lemma satAdd_lt (a b : ℕ) : satAdd a b < U128LIM := by
  unfold satAdd
  have h : U128LIM - 1 < U128LIM := by
    have := U128LIM_pos; omega
  exact lt_of_le_of_lt (min_le_right _ _) h

lemma satAdd_eq_of_lt {a b : ℕ} (h : a + b < U128LIM) : satAdd a b = a + b := by
  unfold satAdd
  exact min_eq_left (by omega)

lemma satSub_le (a b : ℕ) : satSub a b ≤ a := Nat.sub_le a b

lemma le_satAdd {a : ℕ} (b : ℕ) (h : a < U128LIM) : a ≤ satAdd a b := by
  unfold satAdd
  exact le_min (Nat.le_add_right a b) (by omega)

lemma satAdd_pos {a b : ℕ} (h : 0 < b) : 0 < satAdd a b := by
  unfold satAdd
  have h1 : (0 : ℕ) < U128LIM - 1 := by
    unfold U128LIM
    norm_num
  omega

lemma satSub_lt_of_lt {a b m : ℕ} (h : a < m) : satSub a b < m :=
  lt_of_le_of_lt (satSub_le a b) h

lemma mod_U128_lt (a : ℕ) : a % U128LIM < U128LIM :=
  Nat.mod_lt a U128LIM_pos

/-- Rounding-up division `(a + d - 1) / d` multiplied back up is at least `a`. -/
lemma le_ceilDiv_mul (a d : ℕ) (hd : 0 < d) : a ≤ (a + d - 1) / d * d := by
  have h := Nat.div_add_mod (a + d - 1) d
  have hr : (a + d - 1) % d < d := Nat.mod_lt _ hd
  have hc : (a + d - 1) / d * d = d * ((a + d - 1) / d) := Nat.mul_comm _ _
  omega

/-- Rounding-up division is bounded by any `b` whose multiple covers `a`. -/
lemma ceilDiv_le {a b d : ℕ} (hd : 0 < d) (h : a ≤ b * d) :
    (a + d - 1) / d ≤ b := by
  rw [Nat.div_le_iff_le_mul_add_pred hd]
  have : b * d = d * b := Nat.mul_comm b d
  omega

/-- Rounding-up division of an exact multiple. -/
lemma ceilDiv_mul_exact (amt d : ℕ) (hd : 0 < d) :
    (d * amt + (d - 1)) / d = amt := by
  have h1 : d * amt + (d - 1) = amt * d + d - 1 := by
    have h2 : d * amt = amt * d := Nat.mul_comm d amt
    omega
  rw [h1]
  apply le_antisymm
  · exact ceilDiv_le hd (le_refl _)
  · rw [Nat.le_div_iff_mul_le hd]
    omega

/-- The rounding-up Nat division computes the ceiling of the exact rational. -/
lemma natCeil_div_eq (a d : ℕ) (hd : d ≠ 0) :
    ⌈(a : ℚ) / (d : ℚ)⌉₊ = (a + d - 1) / d := by
  have hd0 : 0 < d := Nat.pos_of_ne_zero hd
  have hdq : (0 : ℚ) < (d : ℚ) := by exact_mod_cast hd0
  apply le_antisymm
  · rw [Nat.ceil_le, div_le_iff₀ hdq]
    have h : a ≤ (a + d - 1) / d * d := le_ceilDiv_mul a d hd0
    exact_mod_cast h
  · have h1 : (a : ℚ) / d ≤ (⌈(a : ℚ) / d⌉₊ : ℚ) := Nat.le_ceil _
    rw [div_le_iff₀ hdq] at h1
    have h2 : a ≤ ⌈(a : ℚ) / (d : ℚ)⌉₊ * d := by exact_mod_cast h1
    exact ceilDiv_le hd0 h2

/-- The rounding-down Nat division computes the floor of the exact rational. -/
lemma natFloor_div_eq (a d : ℕ) :
    ⌊(a : ℚ) / (d : ℚ)⌋₊ = a / d := by
  rw [Nat.floor_div_nat (a : ℚ) d, Nat.floor_natCast]

/-! ## Account-map lemmas -/

lemma lookupA_removeA (m : List (AccountId × Account)) (id : AccountId) :
    lookupA (removeA m id) id = none := by
  induction m with
  | nil => rfl
  | cons p rest ih =>
    unfold removeA at ih ⊢
    by_cases h : p.1 = id
    · simp [List.filter_cons, h, ih]
    · simp only [List.filter_cons]
      have hb : (p.1 != id) = true := by simp [h]
      rw [hb]
      simp only [lookupA, if_neg h, ih]

lemma lookupA_insertA (m : List (AccountId × Account)) (id : AccountId)
    (a : Account) : lookupA (insertA m id a) id = some a := by
  unfold insertA lookupA
  simp

lemma lookupA_mem {m : List (AccountId × Account)} {id : AccountId}
    {a : Account} (h : lookupA m id = some a) : (id, a) ∈ m := by
  induction m with
  | nil => simp [lookupA] at h
  | cons p rest ih =>
    unfold lookupA at h
    by_cases hp : p.1 = id
    · rw [if_pos hp] at h
      obtain ⟨p1, p2⟩ := p
      have h2 : p2 = a := by simpa using h
      have h1 : p1 = id := hp
      subst h1
      subst h2
      exact List.mem_cons_self _ _
    · rw [if_neg hp] at h
      exact List.mem_cons_of_mem _ (ih h)

lemma mem_removeA {p : AccountId × Account} {m : List (AccountId × Account)}
    {id : AccountId} (h : p ∈ removeA m id) : p ∈ m :=
  (List.mem_filter.mp h).1

lemma mem_insertA {p : AccountId × Account} {m : List (AccountId × Account)}
    {id : AccountId} {a : Account} (h : p ∈ insertA m id a) :
    p = (id, a) ∨ p ∈ m := by
  unfold insertA at h
  rcases List.mem_cons.mp h with h1 | h1
  · exact Or.inl h1
  · exact Or.inr (mem_removeA h1)

/-! ## Frame lemmas for `internal_save_account` -/

lemma save_total_staked (c : StakingContract) (id : AccountId) (a : Account) :
    (internal_save_account c id a).total_staked_balance = c.total_staked_balance := by
  unfold internal_save_account
  split <;> rfl

lemma save_total_shares (c : StakingContract) (id : AccountId) (a : Account) :
    (internal_save_account c id a).total_stake_shares = c.total_stake_shares := by
  unfold internal_save_account
  split <;> rfl

lemma save_last_total (c : StakingContract) (id : AccountId) (a : Account) :
    (internal_save_account c id a).last_total_balance = c.last_total_balance := by
  unfold internal_save_account
  split <;> rfl

lemma save_last_epoch (c : StakingContract) (id : AccountId) (a : Account) :
    (internal_save_account c id a).last_epoch_height = c.last_epoch_height := by
  unfold internal_save_account
  split <;> rfl

lemma lookup_save_same (c : StakingContract) (id : AccountId) (a : Account) :
    lookupA (internal_save_account c id a).accounts id =
      if a.unstaked = 0 ∧ a.stake_shares = 0 then none else some a := by
  unfold internal_save_account
  by_cases h : a.unstaked > 0 ∨ a.stake_shares > 0
  · rw [if_pos h]
    have : ¬ (a.unstaked = 0 ∧ a.stake_shares = 0) := by omega
    rw [if_neg this]
    exact lookupA_insertA c.accounts id a
  · rw [if_neg h]
    have : a.unstaked = 0 ∧ a.stake_shares = 0 := by omega
    rw [if_pos this]
    exact lookupA_removeA c.accounts id

lemma get_save_same (c : StakingContract) (id : AccountId) (a : Account) :
    internal_get_account (internal_save_account c id a) id =
      if a.unstaked = 0 ∧ a.stake_shares = 0 then Account.default0 else a := by
  unfold internal_get_account
  rw [lookup_save_same]
  split <;> rfl

lemma staked_up_save (c : StakingContract) (id : AccountId) (a : Account)
    (n : ℕ) : staked_amount_from_num_shares_rounded_up (internal_save_account c id a) n =
      staked_amount_from_num_shares_rounded_up c n := by
  unfold staked_amount_from_num_shares_rounded_up
  rw [save_total_shares, save_total_staked]

lemma staked_down_save (c : StakingContract) (id : AccountId) (a : Account)
    (n : ℕ) : staked_amount_from_num_shares_rounded_down (internal_save_account c id a) n =
      staked_amount_from_num_shares_rounded_down c n := by
  unfold staked_amount_from_num_shares_rounded_down
  rw [save_total_shares, save_total_staked]

lemma wf_get {c : StakingContract} (id : AccountId)
    (hw : ∀ p ∈ c.accounts, p.2.unstaked < U128LIM ∧ p.2.stake_shares < U128LIM) :
    (internal_get_account c id).unstaked < U128LIM ∧
    (internal_get_account c id).stake_shares < U128LIM := by
  unfold internal_get_account
  cases hlk : lookupA c.accounts id with
  | none =>
    constructor <;> exact U128LIM_pos
  | some a =>
    exact hw (id, a) (lookupA_mem hlk)

lemma wf_accounts_save {c : StakingContract} {id : AccountId} {a : Account}
    (hw : ∀ p ∈ c.accounts, p.2.unstaked < U128LIM ∧ p.2.stake_shares < U128LIM)
    (hu : a.unstaked < U128LIM) (hs : a.stake_shares < U128LIM) :
    ∀ p ∈ (internal_save_account c id a).accounts,
      p.2.unstaked < U128LIM ∧ p.2.stake_shares < U128LIM := by
  intro p hp
  unfold internal_save_account at hp
  by_cases hcond : a.unstaked > 0 ∨ a.stake_shares > 0
  · rw [if_pos hcond] at hp
    dsimp only at hp
    rcases mem_insertA hp with h | h
    · rw [h]
      exact ⟨hu, hs⟩
    · exact hw p h
  · rw [if_neg hcond] at hp
    dsimp only at hp
    exact hw p (mem_removeA hp)

/-- `internal_deposit` preserves `u128` representability of the state. -/
lemma deposit_wf {c c' : StakingContract} {id : AccountId} {amount : ℕ}
    (h : internal_deposit c id amount = some c') (hw : wfBounds c) : wfBounds c' := by
  obtain ⟨hw1, hw2, hw3, hw4⟩ := hw
  unfold internal_deposit at h
  simp only [Option.some.injEq] at h
  rw [← h]
  refine ⟨?_, ?_, ?_, ?_⟩
  · simp [save_total_staked]
    exact hw1
  · simp [save_total_shares]
    exact hw2
  · exact satAdd_lt _ _
  · show ∀ p ∈ (internal_save_account c id _).accounts, _
    exact wf_accounts_save hw4 (satAdd_lt _ _) (wf_get id hw4).2

/-- `internal_withdraw` preserves `u128` representability of the state. -/
lemma withdraw_wf {c c' : StakingContract} {id : AccountId}
    {epoch_height amount : ℕ} {tr : AccountId × ℕ}
    (h : internal_withdraw c id epoch_height amount = some (c', tr))
    (hw : wfBounds c) : wfBounds c' := by
  obtain ⟨hw1, hw2, hw3, hw4⟩ := hw
  unfold internal_withdraw at h
  split at h
  · exact absurd h (by simp)
  · dsimp only at h
    split at h
    · exact absurd h (by simp)
    · split at h
      · exact absurd h (by simp)
      · simp only [Option.some.injEq, Prod.mk.injEq] at h
        rw [← h.1]
        refine ⟨?_, ?_, ?_, ?_⟩
        · simp [save_total_staked]
          exact hw1
        · simp [save_total_shares]
          exact hw2
        · exact satSub_lt_of_lt (by rw [save_last_total]; exact hw3)
        · show ∀ p ∈ (internal_save_account c id _).accounts, _
          exact wf_accounts_save hw4 (satSub_lt_of_lt (wf_get id hw4).1) (wf_get id hw4).2

/-- `internal_stake` preserves `u128` representability of the state. -/
lemma stake_wf {c c' : StakingContract} {id : AccountId} {amount : ℕ}
    (h : internal_stake c id amount = some c') (hw : wfBounds c) : wfBounds c' := by
  obtain ⟨hw1, hw2, hw3, hw4⟩ := hw
  unfold internal_stake at h
  split at h
  · exact absurd h (by simp)
  · dsimp only at h
    split at h
    · exact absurd h (by simp)
    · split at h
      · exact absurd h (by simp)
      · split at h
        · exact absurd h (by simp)
        · split at h
          · exact absurd h (by simp)
          · split at h
            · exact absurd h (by simp)
            · split at h
              · exact absurd h (by simp)
              · simp only [Option.some.injEq] at h
                rw [← h]
                refine ⟨satAdd_lt _ _, satAdd_lt _ _, ?_, ?_⟩
                · simp [save_last_total]
                  exact hw3
                · show ∀ p ∈ (internal_save_account c id _).accounts, _
                  exact wf_accounts_save hw4 (satSub_lt_of_lt (wf_get id hw4).1)
                    (satAdd_lt _ _)

/-- `inner_unstake` preserves `u128` representability of the state. -/
lemma unstake_wf {c c' : StakingContract} {id : AccountId}
    {epoch_height amount : ℕ}
    (h : inner_unstake c id epoch_height amount = some c') (hw : wfBounds c) :
    wfBounds c' := by
  obtain ⟨hw1, hw2, hw3, hw4⟩ := hw
  unfold inner_unstake at h
  split at h
  · exact absurd h (by simp)
  · dsimp only at h
    split at h
    · exact absurd h (by simp)
    · split at h
      · exact absurd h (by simp)
      · split at h
        · exact absurd h (by simp)
        · split at h
          · exact absurd h (by simp)
          · split at h
            · exact absurd h (by simp)
            · split at h
              · exact absurd h (by simp)
              · split at h
                · exact absurd h (by simp)
                · simp only [Option.some.injEq] at h
                  rw [← h]
                  refine ⟨?_, ?_, ?_, ?_⟩
                  · exact satSub_lt_of_lt (by rw [save_total_staked]; exact hw1)
                  · exact satSub_lt_of_lt (by rw [save_total_shares]; exact hw2)
                  · simp [save_last_total]
                    exact hw3
                  · show ∀ p ∈ (internal_save_account c id _).accounts, _
                    exact wf_accounts_save hw4 (satAdd_lt _ _) (satAdd_lt _ _)

/-- `internal_ping` preserves `u128` representability of the state. -/
lemma ping_wf {c c' : StakingContract} {r : Bool} {e l b d : ℕ}
    (h : internal_ping c e l b d = some (c', r)) (hw : wfBounds c) : wfBounds c' := by
  obtain ⟨hw1, hw2, hw3, hw4⟩ := hw
  unfold internal_ping at h
  split at h
  · simp only [Option.some.injEq, Prod.mk.injEq] at h
    rw [← h.1]
    exact ⟨hw1, hw2, hw3, hw4⟩
  · dsimp only at h
    split at h
    · exact absurd h (by simp)
    · split at h
      · simp only [Option.some.injEq, Prod.mk.injEq] at h
        rw [← h.1]
        exact ⟨hw1, hw2, satSub_lt_of_lt (satAdd_lt _ _), hw4⟩
      · split at h
        · exact absurd h (by simp)
        · split at h
          · exact absurd h (by simp)
          · split at h
            · simp only [Option.some.injEq, Prod.mk.injEq] at h
              rw [← h.1]
              refine ⟨satAdd_lt _ _, ?_, satSub_lt_of_lt (satAdd_lt _ _), ?_⟩
              · simp only [save_total_shares]
                exact satAdd_lt _ _
              · show ∀ p ∈ (internal_save_account _ _ _).accounts, _
                exact wf_accounts_save hw4 (wf_get _ hw4).1 (satAdd_lt _ _)
            · simp only [Option.some.injEq, Prod.mk.injEq] at h
              rw [← h.1]
              exact ⟨satAdd_lt _ _, hw2, satSub_lt_of_lt (satAdd_lt _ _), hw4⟩

/-- With price at least 1 (`shares ≤ staked`), converting an amount to shares
rounding down yields at most the amount. -/
lemma floor_frac_le {shares staked amt : ℕ} (hps : shares ≤ staked)
    (h0 : 0 < staked) : shares * amt / staked ≤ amt := by
  calc shares * amt / staked ≤ staked * amt / staked :=
        Nat.div_le_div_right (Nat.mul_le_mul_right amt hps)
    _ = amt := Nat.mul_div_cancel_left amt h0

/-- With price at least 1, converting an amount to shares rounding up yields
at most the amount. -/
lemma ceil_frac_le {shares staked amt : ℕ} (hps : shares ≤ staked)
    (h0 : 0 < staked) : (shares * amt + (staked - 1)) / staked ≤ amt := by
  have h1 : shares * amt + (staked - 1) = shares * amt + staked - 1 := by omega
  rw [h1]
  refine ceilDiv_le h0 ?_
  rw [Nat.mul_comm amt staked]
  exact Nat.mul_le_mul_right amt hps

/-- Core price inequality for `internal_stake`: adding the rounded-up amount
for `n` shares to the pool while adding `n` shares keeps
`staked / shares` non-decreasing. -/
lemma stake_price_core {staked shares n : ℕ} (hsh : 0 < shares) :
    staked * (shares + n) ≤
      (staked + (staked * n + (shares - 1)) / shares) * shares := by
  have h1 : staked * n + (shares - 1) = staked * n + shares - 1 := by omega
  have h2 : staked * n ≤ (staked * n + (shares - 1)) / shares * shares := by
    rw [h1]
    exact le_ceilDiv_mul (staked * n) shares hsh
  calc staked * (shares + n) = staked * shares + staked * n := Nat.mul_add _ _ _
    _ ≤ staked * shares + (staked * n + (shares - 1)) / shares * shares := by omega
    _ = (staked + (staked * n + (shares - 1)) / shares) * shares := by
        rw [Nat.add_mul]

/-- Core price inequality for `inner_unstake`: removing the rounded-down
amount for `n` shares while removing `n` shares keeps `staked / shares`
non-decreasing. -/
lemma unstake_price_core {staked shares n : ℕ} :
    staked * (shares - n) ≤ (staked - staked * n / shares) * shares := by
  have h1 : staked * n / shares * shares ≤ staked * n := Nat.div_mul_le_self _ _
  have h2 : staked * (shares - n) = staked * shares - staked * n := by
    rw [Nat.mul_comm staked (shares - n), tsub_mul, Nat.mul_comm shares staked,
      Nat.mul_comm n staked]
  have h3 : (staked - staked * n / shares) * shares =
      staked * shares - staked * n / shares * shares := tsub_mul _ _ _
  rw [h2, h3]
  exact Nat.sub_le_sub_left h1 _

/-- Core price inequality for the fee-share minting step of `internal_ping`:
with `shares ≤ staked ≤ staked_mid`, minting the rounded-down fee shares while
adding `rem + fee` tokens (where `staked_mid = staked + rem`) keeps the price
non-decreasing. -/
lemma ping_price_core {staked shares rem fee : ℕ} :
    staked * (shares + shares * fee / (staked + rem)) ≤
      (staked + rem + fee) * shares := by
  have h1 : staked * (shares * fee / (staked + rem)) ≤ fee * shares := by
    calc staked * (shares * fee / (staked + rem))
        ≤ (staked + rem) * (shares * fee / (staked + rem)) :=
          Nat.mul_le_mul_right _ (Nat.le_add_right _ _)
      _ = shares * fee / (staked + rem) * (staked + rem) := Nat.mul_comm _ _
      _ ≤ shares * fee := Nat.div_mul_le_self _ _
      _ = fee * shares := Nat.mul_comm _ _
  calc staked * (shares + shares * fee / (staked + rem))
      = staked * shares + staked * (shares * fee / (staked + rem)) := Nat.mul_add _ _ _
    _ ≤ staked * shares + (rem + fee) * shares := by
        have h2 : (rem + fee) * shares = rem * shares + fee * shares := Nat.add_mul _ _ _
        omega
    _ = (staked + (rem + fee)) * shares := (Nat.add_mul _ _ _).symm
    _ = (staked + rem + fee) * shares := by rw [Nat.add_assoc]

/-- On every success `internal_ping` records the epoch it ran at. -/
lemma ping_epoch_eq {c c' : StakingContract} {r : Bool} {e l b d : ℕ}
    (h : internal_ping c e l b d = some (c', r)) : c'.last_epoch_height = e := by
  unfold internal_ping at h
  split at h
  · rename_i heq
    simp only [Option.some.injEq, Prod.mk.injEq] at h
    rw [← h.1]
    exact heq
  · dsimp only at h
    split at h
    · exact absurd h (by simp)
    · split at h
      · simp only [Option.some.injEq, Prod.mk.injEq] at h
        rw [← h.1]
      · split at h
        · exact absurd h (by simp)
        · split at h
          · exact absurd h (by simp)
          · split at h
            · simp only [Option.some.injEq, Prod.mk.injEq] at h
              rw [← h.1]
              simp [save_last_epoch]
            · simp only [Option.some.injEq, Prod.mk.injEq] at h
              rw [← h.1]

/-! ## C3: deposit -/

/-- C3 (amended): `internal_deposit` never fails — in particular a zero
attached amount is accepted as a no-op rather than rejected — and for every
amount it adds the amount (saturating at `2 ^ 128 - 1`) to the caller's
unstaked balance and to `last_total_balance`, changing no share count. -/
theorem c3_deposit_effects (c : StakingContract) (id : AccountId) (amount : ℕ) :
    ∃ c', internal_deposit c id amount = some c' ∧
      c'.total_staked_balance = c.total_staked_balance ∧
      c'.total_stake_shares = c.total_stake_shares ∧
      c'.last_total_balance = satAdd c.last_total_balance amount ∧
      (internal_get_account c' id).unstaked =
        satAdd (internal_get_account c id).unstaked amount ∧
      (internal_get_account c' id).stake_shares =
        (internal_get_account c id).stake_shares := by
  unfold internal_deposit
  refine ⟨_, rfl, ?_, ?_, ?_, ?_, ?_⟩
  · simp [save_total_staked]
  · simp [save_total_shares]
  · simp [save_last_total]
  · show (internal_get_account (internal_save_account c id _) id).unstaked = _
    rw [get_save_same]
    split
    · rename_i hz
      exact hz.1.symm
    · rfl
  · show (internal_get_account (internal_save_account c id _) id).stake_shares = _
    rw [get_save_same]
    split
    · rename_i hz
      exact hz.2.symm
    · rfl

/-- C3 counterexample to the claim as stated: a deposit with a zero attached
amount does not fail — `internal_deposit` succeeds and leaves the state
exactly unchanged. -/
theorem c3_zero_deposit_accepted :
    internal_deposit ⟨1, 1, 5, 0, false, 0, 0, 1, []⟩ 7 0 =
      some ⟨1, 1, 5, 0, false, 0, 0, 1, []⟩ := by decide

/-! ## C7: conversion failure conditions -/

/-- C7: the two shares-from-amount conversions fail exactly when
`total_staked_balance = 0`, and the two amount-from-shares conversions fail
exactly when `total_stake_shares = 0`; under the respective positivity
precondition none of them can fail. -/
theorem c7_conversion_failure_iff (c : StakingContract) (amount num_shares : ℕ) :
    (num_shares_from_staked_amount_rounded_down c amount = none ↔
      c.total_staked_balance = 0) ∧
    (num_shares_from_staked_amount_rounded_up c amount = none ↔
      c.total_staked_balance = 0) ∧
    (staked_amount_from_num_shares_rounded_down c num_shares = none ↔
      c.total_stake_shares = 0) ∧
    (staked_amount_from_num_shares_rounded_up c num_shares = none ↔
      c.total_stake_shares = 0) := by
  unfold num_shares_from_staked_amount_rounded_down
    num_shares_from_staked_amount_rounded_up
    staked_amount_from_num_shares_rounded_down
    staked_amount_from_num_shares_rounded_up
  refine ⟨?_, ?_, ?_, ?_⟩ <;> split <;> simp_all

/-- C7 witness: at a state with positive totals none of the conversions fail,
and at zero totals they do. -/
theorem c7_conversion_failure_iff_witness :
    num_shares_from_staked_amount_rounded_up ⟨100, 100, 100, 0, false, 0, 0, 1, []⟩ 7 ≠ none ∧
    staked_amount_from_num_shares_rounded_down ⟨0, 0, 0, 0, false, 0, 0, 1, []⟩ 7 = none := by
  constructor
  · intro h
    have h0 := (c7_conversion_failure_iff ⟨100, 100, 100, 0, false, 0, 0, 1, []⟩ 7 7).2.1.mp h
    simp at h0
  · exact (c7_conversion_failure_iff ⟨0, 0, 0, 0, false, 0, 0, 1, []⟩ 7 7).2.2.1.mpr rfl

/-! ## C8: withdraw -/

/-- C8: `internal_withdraw` fails on a zero amount, on insufficient unstaked
balance, and on a pending unlock delay (each with no mutation — the failing
call returns `none` and the host keeps the pre-call state); otherwise it
debits the account's unstaked balance, emits the transfer of the amount to
the caller, debits `last_total_balance`, and leaves every share count and
`total_staked_balance` unchanged. -/
theorem c8_withdraw_spec (c : StakingContract) (id : AccountId)
    (epoch_height amount : ℕ) :
    (amount = 0 → internal_withdraw c id epoch_height amount = none) ∧
    ((internal_get_account c id).unstaked < amount →
      internal_withdraw c id epoch_height amount = none) ∧
    (epoch_height < (internal_get_account c id).unstaked_available_epoch_height →
      internal_withdraw c id epoch_height amount = none) ∧
    (amount ≠ 0 → amount ≤ (internal_get_account c id).unstaked →
      (internal_get_account c id).unstaked_available_epoch_height ≤ epoch_height →
      ∃ c', internal_withdraw c id epoch_height amount = some (c', (id, amount)) ∧
        (internal_get_account c' id).unstaked =
          (internal_get_account c id).unstaked - amount ∧
        (internal_get_account c' id).stake_shares =
          (internal_get_account c id).stake_shares ∧
        c'.total_staked_balance = c.total_staked_balance ∧
        c'.total_stake_shares = c.total_stake_shares ∧
        c'.last_total_balance = c.last_total_balance - amount) := by
  refine ⟨?_, ?_, ?_, ?_⟩
  · intro h
    unfold internal_withdraw
    rw [if_pos h]
  · intro h
    have h0 : amount ≠ 0 := by omega
    unfold internal_withdraw
    rw [if_neg h0, if_pos h]
  · intro h
    by_cases h0 : amount = 0
    · unfold internal_withdraw
      rw [if_pos h0]
    · by_cases h1 : (internal_get_account c id).unstaked < amount
      · unfold internal_withdraw
        rw [if_neg h0, if_pos h1]
      · unfold internal_withdraw
        rw [if_neg h0, if_neg h1, if_pos h]
  · intro h0 h1 h2
    unfold internal_withdraw
    rw [if_neg h0, if_neg (by omega : ¬ (internal_get_account c id).unstaked < amount),
      if_neg (by omega :
        ¬ epoch_height < (internal_get_account c id).unstaked_available_epoch_height)]
    refine ⟨_, rfl, ?_, ?_, ?_, ?_, ?_⟩
    · show (internal_get_account (internal_save_account c id _) id).unstaked = _
      rw [get_save_same]
      split
      · rename_i hz
        exact hz.1.symm
      · rfl
    · show (internal_get_account (internal_save_account c id _) id).stake_shares = _
      rw [get_save_same]
      split
      · rename_i hz
        exact hz.2.symm
      · rfl
    · simp [save_total_staked]
    · simp [save_total_shares]
    · simp [save_last_total, satSub]

/-- C8 witness: a concrete successful withdrawal. -/
theorem c8_withdraw_spec_witness :
    ∃ c', internal_withdraw ⟨50, 50, 60, 0, false, 0, 0, 1, [(7, ⟨10, 3, 2⟩)]⟩ 7 5 4 =
      some (c', (7, 4)) ∧
      (internal_get_account c' 7).unstaked = 6 ∧
      (internal_get_account c' 7).stake_shares = 3 ∧
      c'.total_staked_balance = 50 ∧
      c'.total_stake_shares = 50 ∧
      c'.last_total_balance = 56 := by
  obtain ⟨c', h, h1, h2, h3, h4, h5⟩ :=
    (c8_withdraw_spec ⟨50, 50, 60, 0, false, 0, 0, 1, [(7, ⟨10, 3, 2⟩)]⟩ 7 5 4).2.2.2
      (by decide) (by decide) (by decide)
  exact ⟨c', h, by rw [h1]; rfl, by rw [h2]; rfl, by rw [h3], by rw [h4],
    by rw [h5]; rfl⟩

/-! ## C9: get / save / pruning -/

/-- C9: `internal_get_account` is total and returns the stored record or the
zero default; `internal_save_account` removes the entry when both balances
are zero and upserts otherwise; consequently an operation (here: a withdraw
emptying an account with no stake shares) that leaves both balances at zero
leaves no stored record, and a subsequent get returns the default. -/
theorem c9_account_pruning (c : StakingContract) (id : AccountId)
    (a stored : Account) :
    (lookupA c.accounts id = none → internal_get_account c id = Account.default0) ∧
    (lookupA c.accounts id = some stored → internal_get_account c id = stored) ∧
    (a.unstaked = 0 → a.stake_shares = 0 →
      lookupA (internal_save_account c id a).accounts id = none ∧
      internal_get_account (internal_save_account c id a) id = Account.default0) ∧
    ((a.unstaked ≠ 0 ∨ a.stake_shares ≠ 0) →
      lookupA (internal_save_account c id a).accounts id = some a) ∧
    (∀ epoch_height amount c' tr,
      internal_withdraw c id epoch_height amount = some (c', tr) →
      (internal_get_account c id).unstaked = amount →
      (internal_get_account c id).stake_shares = 0 →
      lookupA c'.accounts id = none ∧
      internal_get_account c' id = Account.default0) := by
  refine ⟨?_, ?_, ?_, ?_, ?_⟩
  · intro h
    unfold internal_get_account
    rw [h]
    rfl
  · intro h
    unfold internal_get_account
    rw [h]
    rfl
  · intro h1 h2
    constructor
    · rw [lookup_save_same, if_pos ⟨h1, h2⟩]
    · rw [get_save_same, if_pos ⟨h1, h2⟩]
  · intro h
    rw [lookup_save_same, if_neg (by omega)]
  · intro e amt c' tr h hu hs
    unfold internal_withdraw at h
    split at h
    · exact absurd h (by simp)
    · dsimp only at h
      split at h
      · exact absurd h (by simp)
      · split at h
        · exact absurd h (by simp)
        · simp only [Option.some.injEq, Prod.mk.injEq] at h
          obtain ⟨hc, _⟩ := h
          have hzero : satSub (internal_get_account c id).unstaked amt = 0 := by
            unfold satSub
            omega
          constructor
          · rw [← hc]
            show lookupA (internal_save_account c id _).accounts id = none
            rw [lookup_save_same, if_pos ⟨hzero, hs⟩]
          · rw [← hc]
            show internal_get_account
              { internal_save_account c id _ with last_total_balance := _ } id = _
            unfold internal_get_account
            show (lookupA (internal_save_account c id _).accounts id).getD _ = _
            rw [lookup_save_same, if_pos ⟨hzero, hs⟩]
            rfl

/-- C9 witness: withdrawing the whole unstaked balance of an account with no
stake shares deletes its record. -/
theorem c9_account_pruning_witness :
    ∃ c' tr, internal_withdraw ⟨50, 50, 60, 0, false, 0, 0, 1, [(7, ⟨10, 0, 2⟩)]⟩ 7 5 10 =
      some (c', tr) ∧
      lookupA c'.accounts 7 = none ∧
      internal_get_account c' 7 = Account.default0 := by
  have h : internal_withdraw ⟨50, 50, 60, 0, false, 0, 0, 1, [(7, ⟨10, 0, 2⟩)]⟩ 7 5 10 =
      some (⟨50, 50, 50, 0, false, 0, 0, 1, []⟩, (7, 10)) := by decide
  obtain ⟨h1, h2⟩ :=
    (c9_account_pruning ⟨50, 50, 60, 0, false, 0, 0, 1, [(7, ⟨10, 0, 2⟩)]⟩ 7
      Account.default0 Account.default0).2.2.2.2 5 10 _ _ h (by decide) (by decide)
  exact ⟨_, _, h, h1, h2⟩

/-! ## C5: ping idempotence -/

/-- C5: `internal_ping` is idempotent within an epoch: when the current epoch
equals `last_epoch_height` it is a no-op returning the "no change" flag, and
after any successful ping a second ping at the same epoch height (whatever
balances the host then reports) leaves the state exactly as after the first. -/
theorem c5_ping_idempotent (c c' : StakingContract) (r : Bool)
    (e l b d l' b' d' : ℕ) :
    (c.last_epoch_height = e →
      internal_ping c e l b d = some (c, false)) ∧
    (internal_ping c e l b d = some (c', r) →
      internal_ping c' e l' b' d' = some (c', false)) := by
  constructor
  · intro h
    unfold internal_ping
    rw [if_pos h]
  · intro h
    have he := ping_epoch_eq h
    unfold internal_ping
    rw [if_pos he]

/-- C5 witness: a concrete reward-distributing ping followed by a second ping
at the same epoch is a no-op. -/
theorem c5_ping_idempotent_witness :
    internal_ping ⟨100, 100, 100, 0, false, 0, 0, 1, []⟩ 1 150 0 0 =
      some (⟨150, 100, 150, 1, false, 0, 0, 1, []⟩, true) ∧
    internal_ping ⟨150, 100, 150, 1, false, 0, 0, 1, []⟩ 1 999 0 0 =
      some (⟨150, 100, 150, 1, false, 0, 0, 1, []⟩, false) :=
  ⟨by decide,
    (c5_ping_idempotent ⟨100, 100, 100, 0, false, 0, 0, 1, []⟩
      ⟨150, 100, 150, 1, false, 0, 0, 1, []⟩ true 1 150 0 0 999 0 0).2 (by decide)⟩

/-! ## C6: all-or-nothing failure -/

/-- C6: every mutating operation is all-or-nothing: `internal_deposit` has no
failure path at all, and whenever stake, unstake, withdraw or ping fails
(`none`, a rolled-back panic) the state the host persists is exactly the
pre-call state — in particular a ping that fails because the observed total
balance dropped below `last_total_balance` leaves `last_epoch_height`
unchanged as well. -/
theorem c6_all_or_nothing (c : StakingContract) (id : AccountId)
    (epoch_height locked_balance account_balance attached_deposit amount : ℕ) :
    (internal_deposit c id amount ≠ none) ∧
    (internal_stake c id amount = none →
      hostRun c (internal_stake c id amount) = c) ∧
    (inner_unstake c id epoch_height amount = none →
      hostRun c (inner_unstake c id epoch_height amount) = c) ∧
    (internal_withdraw c id epoch_height amount = none →
      hostRunW c (internal_withdraw c id epoch_height amount) = c) ∧
    (internal_ping c epoch_height locked_balance account_balance attached_deposit = none →
      pingRun c epoch_height locked_balance account_balance attached_deposit = c ∧
      (pingRun c epoch_height locked_balance account_balance
        attached_deposit).last_epoch_height = c.last_epoch_height) := by
  refine ⟨?_, ?_, ?_, ?_, ?_⟩
  · unfold internal_deposit
    simp
  · intro h
    unfold hostRun
    rw [h]
    rfl
  · intro h
    unfold hostRun
    rw [h]
    rfl
  · intro h
    unfold hostRunW
    rw [h]
  · intro h
    unfold pingRun
    rw [h]
    exact ⟨rfl, rfl⟩

/-- C6 witness: a ping observing a shrunk balance fails and persists nothing,
keeping `last_epoch_height` in particular. -/
theorem c6_all_or_nothing_witness :
    internal_ping ⟨100, 100, 100, 0, false, 0, 0, 1, []⟩ 1 50 0 0 = none ∧
    pingRun ⟨100, 100, 100, 0, false, 0, 0, 1, []⟩ 1 50 0 0 =
      ⟨100, 100, 100, 0, false, 0, 0, 1, []⟩ ∧
    (pingRun ⟨100, 100, 100, 0, false, 0, 0, 1, []⟩ 1 50 0 0).last_epoch_height = 0 := by
  have h := (c6_all_or_nothing ⟨100, 100, 100, 0, false, 0, 0, 1, []⟩ 0 1 50 0 0 0).2.2.2.2
    (by decide)
  exact ⟨by decide, h.1, h.2⟩

/-! ## C4: the conversions compute exact rational floors and ceilings -/

/-- C4 (amended): under the positivity preconditions each conversion equals
the exact floor or ceiling of the corresponding rational — the wide
intermediate product is exact and never overflows — whenever that exact value
fits the 128-bit result domain; the final downcast reduces values modulo
`2 ^ 128`, so beyond `2 ^ 128 - 1` the result wraps (counterexample
`c4_result_overflow_wraps`). -/
theorem c4_conversions_exact (c : StakingContract) (amount num_shares : ℕ) :
    (c.total_staked_balance ≠ 0 →
      c.total_stake_shares * amount / c.total_staked_balance < U128LIM →
      num_shares_from_staked_amount_rounded_down c amount =
        some (sharesFromAmountSpec c amount false)) ∧
    (c.total_staked_balance ≠ 0 →
      (c.total_stake_shares * amount + (c.total_staked_balance - 1)) /
          c.total_staked_balance < U128LIM →
      num_shares_from_staked_amount_rounded_up c amount =
        some (sharesFromAmountSpec c amount true)) ∧
    (c.total_stake_shares ≠ 0 →
      c.total_staked_balance * num_shares / c.total_stake_shares < U128LIM →
      staked_amount_from_num_shares_rounded_down c num_shares =
        some (amountFromSharesSpec c num_shares false)) ∧
    (c.total_stake_shares ≠ 0 →
      (c.total_staked_balance * num_shares + (c.total_stake_shares - 1)) /
          c.total_stake_shares < U128LIM →
      staked_amount_from_num_shares_rounded_up c num_shares =
        some (amountFromSharesSpec c num_shares true)) := by
  refine ⟨?_, ?_, ?_, ?_⟩
  · intro h1 h2
    unfold num_shares_from_staked_amount_rounded_down sharesFromAmountSpec
    rw [if_neg h1, Nat.mod_eq_of_lt h2]
    show _ = some ⌊_⌋₊
    rw [natFloor_div_eq]
  · intro h1 h2
    unfold num_shares_from_staked_amount_rounded_up sharesFromAmountSpec
    rw [if_neg h1, Nat.mod_eq_of_lt h2]
    show _ = some ⌈_⌉₊
    rw [natCeil_div_eq _ _ h1]
    have h3 : c.total_stake_shares * amount + c.total_staked_balance - 1 =
        c.total_stake_shares * amount + (c.total_staked_balance - 1) := by
      have h4 : c.total_staked_balance ≠ 0 := h1
      omega
    rw [h3]
  · intro h1 h2
    unfold staked_amount_from_num_shares_rounded_down amountFromSharesSpec
    rw [if_neg h1, Nat.mod_eq_of_lt h2]
    show _ = some ⌊_⌋₊
    rw [natFloor_div_eq]
  · intro h1 h2
    unfold staked_amount_from_num_shares_rounded_up amountFromSharesSpec
    rw [if_neg h1, Nat.mod_eq_of_lt h2]
    show _ = some ⌈_⌉₊
    rw [natCeil_div_eq _ _ h1]
    have h3 : c.total_staked_balance * num_shares + c.total_stake_shares - 1 =
        c.total_staked_balance * num_shares + (c.total_stake_shares - 1) := by
      have h4 : c.total_stake_shares ≠ 0 := h1
      omega
    rw [h3]

/-- C4 witness: at a state with 100 staked tokens backing 100 shares, the
rounded-up conversion of 7 tokens equals the exact rational ceiling. -/
theorem c4_conversions_exact_witness :
    num_shares_from_staked_amount_rounded_up ⟨100, 100, 0, 0, false, 0, 0, 1, []⟩ 7 =
      some (sharesFromAmountSpec ⟨100, 100, 0, 0, false, 0, 0, 1, []⟩ 7 true) :=
  (c4_conversions_exact ⟨100, 100, 0, 0, false, 0, 0, 1, []⟩ 7 0).2.1
    (by decide) (by decide)

/-- C4 counterexample to the claim as stated: with `total_staked_balance = 1`
and `total_stake_shares = 2 ^ 128 - 1`, converting an amount of 2 yields
`2 ^ 128 - 2` — the exact floor `2 ^ 129 - 2` does not fit the 128-bit result
domain and is reduced by the downcast, so the conversion does not equal the
exact floor for every input under the positivity preconditions alone. -/
theorem c4_result_overflow_wraps :
    num_shares_from_staked_amount_rounded_down
      ⟨1, 2 ^ 128 - 1, 0, 0, false, 0, 0, 1, []⟩ 2 = some (2 ^ 128 - 2) ∧
    sharesFromAmountSpec ⟨1, 2 ^ 128 - 1, 0, 0, false, 0, 0, 1, []⟩ 2 false =
      2 ^ 129 - 2 ∧
    (2 ^ 128 - 2 : ℕ) ≠ 2 ^ 129 - 2 := by
  refine ⟨by decide, ?_, by decide⟩
  show ⌊(((2 ^ 128 - 1) * 2 : ℕ) : ℚ) / ((1 : ℕ) : ℚ)⌋₊ = 2 ^ 129 - 2
  rw [natFloor_div_eq]
  decide

/-! ## C2: unstake -/

/-- C2 (amended): for `amount > 0` and `total_staked_balance > 0`, unstake
computes `num_shares` by the rounded-up shares-from-amount conversion and
fails if it is zero; fails if `account.stake_shares < num_shares`; fails if
the rounded-up receivable amount for `num_shares` is zero after the 128-bit
downcast (the amendment — the source also asserts `receive_amount > 0`);
otherwise it adds (`saturating_add`) `num_shares` to `account.stake_shares`
(the source increments, as the claim states), adds `receive_amount` to
`account.unstaked`, sets the unlock height to
`currentEpoch + NUM_EPOCHS_TO_UNLOCK`, subtracts the rounded-down amount from
`total_staked_balance` and `num_shares` from `total_stake_shares`. -/
theorem c2_unstake_spec (c : StakingContract) (id : AccountId)
    (epoch_height amount num_shares : ℕ)
    (h0 : amount ≠ 0) (h1 : c.total_staked_balance ≠ 0)
    (hn : num_shares_from_staked_amount_rounded_up c amount = some num_shares) :
    (num_shares = 0 → inner_unstake c id epoch_height amount = none) ∧
    (num_shares ≠ 0 → (internal_get_account c id).stake_shares < num_shares →
      inner_unstake c id epoch_height amount = none) ∧
    (∀ receive_amount unstake_amount,
      num_shares ≠ 0 → num_shares ≤ (internal_get_account c id).stake_shares →
      staked_amount_from_num_shares_rounded_up c num_shares = some receive_amount →
      staked_amount_from_num_shares_rounded_down c num_shares = some unstake_amount →
      (receive_amount = 0 → inner_unstake c id epoch_height amount = none) ∧
      (receive_amount ≠ 0 → ∃ c',
        inner_unstake c id epoch_height amount = some c' ∧
        (internal_get_account c' id).stake_shares =
          satAdd (internal_get_account c id).stake_shares num_shares ∧
        (internal_get_account c' id).unstaked =
          satAdd (internal_get_account c id).unstaked receive_amount ∧
        (internal_get_account c' id).unstaked_available_epoch_height =
          epoch_height + NUM_EPOCHS_TO_UNLOCK ∧
        c'.total_staked_balance = c.total_staked_balance - unstake_amount ∧
        c'.total_stake_shares = c.total_stake_shares - num_shares ∧
        c'.last_total_balance = c.last_total_balance)) := by
  unfold inner_unstake
  rw [if_neg h0]
  dsimp only
  rw [if_neg h1, hn]
  dsimp only
  refine ⟨?_, ?_, ?_⟩
  · intro h
    rw [if_pos h]
  · intro h2 h3
    rw [if_neg h2, if_pos h3]
  · intro receive_amount unstake_amount h2 h3 hr hu
    rw [if_neg h2, if_neg (by omega : ¬ (internal_get_account c id).stake_shares < num_shares), hr]
    dsimp only
    constructor
    · intro h4
      rw [if_pos h4]
    · intro h4
      rw [if_neg h4, staked_down_save, hu]
      dsimp only
      have hget : internal_get_account (internal_save_account c id
          { internal_get_account c id with
            stake_shares := satAdd (internal_get_account c id).stake_shares num_shares,
            unstaked := satAdd (internal_get_account c id).unstaked receive_amount,
            unstaked_available_epoch_height := epoch_height + NUM_EPOCHS_TO_UNLOCK }) id =
          { internal_get_account c id with
            stake_shares := satAdd (internal_get_account c id).stake_shares num_shares,
            unstaked := satAdd (internal_get_account c id).unstaked receive_amount,
            unstaked_available_epoch_height := epoch_height + NUM_EPOCHS_TO_UNLOCK } := by
        rw [get_save_same]
        have hpos : 0 < satAdd (internal_get_account c id).stake_shares num_shares :=
          satAdd_pos (by omega)
        rw [if_neg (by simp; omega)]
      refine ⟨_, rfl, ?_, ?_, ?_, ?_, ?_, ?_⟩
      · show (internal_get_account (internal_save_account c id _) id).stake_shares = _
        rw [hget]
      · show (internal_get_account (internal_save_account c id _) id).unstaked = _
        rw [hget]
      · show (internal_get_account (internal_save_account c id _) id).unstaked_available_epoch_height = _
        rw [hget]
      · simp [save_total_staked, satSub]
      · simp [save_total_shares, satSub]
      · simp [save_last_total]

/-- C2 witness: a concrete successful unstake of 10 tokens at share price 1,
showing the account's share count increasing from 50 to 60. -/
theorem c2_unstake_spec_witness :
    ∃ c', inner_unstake ⟨100, 100, 50, 0, false, 0, 0, 1, [(7, ⟨0, 50, 0⟩)]⟩ 7 5 10 =
      some c' ∧
      (internal_get_account c' 7).stake_shares = 60 ∧
      (internal_get_account c' 7).unstaked = 10 ∧
      (internal_get_account c' 7).unstaked_available_epoch_height = 9 ∧
      c'.total_staked_balance = 90 ∧
      c'.total_stake_shares = 90 := by
  obtain ⟨hz, hs⟩ :=
    (c2_unstake_spec ⟨100, 100, 50, 0, false, 0, 0, 1, [(7, ⟨0, 50, 0⟩)]⟩ 7 5 10 10
      (by decide) (by decide) (by decide)).2.2 10 10
      (by decide) (by decide) (by decide) (by decide)
  obtain ⟨c', he, f1, f2, f3, f4, f5, f6⟩ := hs (by decide)
  exact ⟨c', he, by rw [f1]; decide, by rw [f2]; decide, by rw [f3]; decide,
    by rw [f4]; decide, by rw [f5]; decide⟩

/-- C2 counterexample to the claim as stated: a state and amount passing both
stated checks (`num_shares` positive, account shares sufficient) on which
unstake nevertheless fails, because the rounded-up receivable amount for
`2 ^ 64` shares is `2 ^ 128`, which the downcast to the 128-bit domain turns
into 0, tripping the source's `receive_amount > 0` assertion. -/
theorem c2_receive_zero_fails :
    num_shares_from_staked_amount_rounded_up
      ⟨2 ^ 64, 1, 0, 0, false, 0, 0, 1, [(7, ⟨0, 2 ^ 64, 0⟩)]⟩ (2 ^ 128 - 1) =
      some (2 ^ 64) ∧
    (2 ^ 64 : ℕ) ≠ 0 ∧
    (2 ^ 64 : ℕ) ≤ (internal_get_account
      ⟨2 ^ 64, 1, 0, 0, false, 0, 0, 1, [(7, ⟨0, 2 ^ 64, 0⟩)]⟩ 7).stake_shares ∧
    inner_unstake ⟨2 ^ 64, 1, 0, 0, false, 0, 0, 1, [(7, ⟨0, 2 ^ 64, 0⟩)]⟩
      7 10 (2 ^ 128 - 1) = none := by
  refine ⟨by decide, by decide, by decide, by decide⟩

/-! ## C10: saturating 128-bit arithmetic -/

/-- C10: the balance and share arithmetic of all five operations is the
saturating 128-bit arithmetic of the source, so results always stay inside
the `u128` domain (each operation preserves `wfBounds`) instead of trapping;
`internal_deposit` in particular can never fail, and `internal_withdraw`
clamps `last_total_balance` at zero — it succeeds even when the withdrawn
amount exceeds `last_total_balance`, whose only checked guard is the
account's own unstaked balance. -/
theorem c10_saturating_arithmetic (c c' : StakingContract) (id : AccountId)
    (epoch_height locked_balance account_balance attached_deposit amount : ℕ)
    (tr : AccountId × ℕ) (r : Bool) :
    (∃ c1, internal_deposit c id amount = some c1) ∧
    (amount ≠ 0 → amount ≤ (internal_get_account c id).unstaked →
      (internal_get_account c id).unstaked_available_epoch_height ≤ epoch_height →
      c.last_total_balance < amount →
      ∃ c1 tr1, internal_withdraw c id epoch_height amount = some (c1, tr1) ∧
        c1.last_total_balance = 0) ∧
    (internal_deposit c id amount = some c' → wfBounds c → wfBounds c') ∧
    (internal_stake c id amount = some c' → wfBounds c → wfBounds c') ∧
    (inner_unstake c id epoch_height amount = some c' → wfBounds c → wfBounds c') ∧
    (internal_withdraw c id epoch_height amount = some (c', tr) →
      wfBounds c → wfBounds c') ∧
    (internal_ping c epoch_height locked_balance account_balance attached_deposit =
      some (c', r) → wfBounds c → wfBounds c') := by
  refine ⟨?_, ?_, ?_, ?_, ?_, ?_, ?_⟩
  · unfold internal_deposit
    exact ⟨_, rfl⟩
  · intro h0 h1 h2 h3
    unfold internal_withdraw
    rw [if_neg h0, if_neg (by omega : ¬ (internal_get_account c id).unstaked < amount),
      if_neg (by omega :
        ¬ epoch_height < (internal_get_account c id).unstaked_available_epoch_height)]
    refine ⟨_, _, rfl, ?_⟩
    show satSub (internal_save_account c id _).last_total_balance amount = 0
    rw [save_last_total]
    unfold satSub
    omega
  · exact fun h hw => deposit_wf h hw
  · exact fun h hw => stake_wf h hw
  · exact fun h hw => unstake_wf h hw
  · exact fun h hw => withdraw_wf h hw
  · exact fun h hw => ping_wf h hw

/-- C10 witness: a deposit stays representable, and a concrete withdraw of 10
tokens with `last_total_balance = 3` succeeds and clamps it at zero. -/
theorem c10_saturating_arithmetic_witness :
    wfBounds (⟨100, 100, 105, 0, false, 0, 0, 1, [(7, ⟨5, 0, 0⟩)]⟩ : StakingContract) ∧
    (∃ c1 tr1, internal_withdraw ⟨100, 100, 3, 0, false, 0, 0, 1, [(7, ⟨10, 1, 0⟩)]⟩
      7 5 10 = some (c1, tr1) ∧ c1.last_total_balance = 0) := by
  constructor
  · exact (c10_saturating_arithmetic ⟨100, 100, 100, 0, false, 0, 0, 1, []⟩
      ⟨100, 100, 105, 0, false, 0, 0, 1, [(7, ⟨5, 0, 0⟩)]⟩ 7 0 0 0 0 5 (0, 0) false).2.2.1
      (by decide) (by decide)
  · exact (c10_saturating_arithmetic ⟨100, 100, 3, 0, false, 0, 0, 1, [(7, ⟨10, 1, 0⟩)]⟩
      ⟨100, 100, 3, 0, false, 0, 0, 1, [(7, ⟨10, 1, 0⟩)]⟩ 7 5 0 0 0 10 (0, 0) false).2.1
      (by decide) (by decide) (by decide) (by decide)

/-! ## C1: share-price monotonicity -/

/-- C1 (amended): across every deposit, stake, unstake, or ping step, the
implied share price `total_staked_balance / total_stake_shares` compared as
an exact rational (`staked * shares' ≤ staked' * shares`) never decreases
between consecutive states with positive `total_stake_shares`, provided the
step's saturating additions stay inside the `u128` domain — guaranteed here
by price at least 1 (`total_stake_shares ≤ total_staked_balance`) together
with the involved quantities being below `2 ^ 126`, bounds every physically
attainable balance satisfies.  At the saturation boundary the property fails
(counterexample `c1_saturation_price_drop`). -/
theorem c1_share_price_monotone (c c' : StakingContract) (id : AccountId)
    (epoch_height locked_balance account_balance attached_deposit amount : ℕ)
    (r : Bool) :
    (internal_deposit c id amount = some c' →
      c.total_staked_balance * c'.total_stake_shares =
        c'.total_staked_balance * c.total_stake_shares) ∧
    (internal_stake c id amount = some c' →
      c.total_stake_shares ≤ c.total_staked_balance →
      c.total_staked_balance < 2 ^ 126 → amount < 2 ^ 126 →
      c.total_staked_balance * c'.total_stake_shares ≤
        c'.total_staked_balance * c.total_stake_shares) ∧
    (inner_unstake c id epoch_height amount = some c' →
      c.total_stake_shares ≤ c.total_staked_balance →
      c.total_staked_balance < U128LIM →
      0 < c'.total_stake_shares →
      c.total_staked_balance * c'.total_stake_shares ≤
        c'.total_staked_balance * c.total_stake_shares) ∧
    (internal_ping c epoch_height locked_balance account_balance attached_deposit =
        some (c', r) →
      c.total_stake_shares ≤ c.total_staked_balance →
      c.total_staked_balance < 2 ^ 126 →
      c.reward_fee_num ≤ c.reward_fee_den →
      satSub (satAdd locked_balance account_balance) attached_deposit < 2 ^ 126 →
      c.total_staked_balance * c'.total_stake_shares ≤
        c'.total_staked_balance * c.total_stake_shares) := by
  have hLIM : (2 : ℕ) ^ 126 < U128LIM := by
    unfold U128LIM
    norm_num
  have hsum : (2 : ℕ) ^ 126 + 2 ^ 126 ≤ U128LIM := by
    unfold U128LIM
    norm_num
  have hsum3 : (2 : ℕ) ^ 126 + 2 ^ 126 + 2 ^ 126 ≤ U128LIM := by
    unfold U128LIM
    norm_num
  refine ⟨?_, ?_, ?_, ?_⟩
  · intro h
    unfold internal_deposit at h
    simp only [Option.some.injEq] at h
    rw [← h]
    simp only [save_total_staked, save_total_shares]
  · intro h hps hb hamt
    unfold internal_stake at h
    split at h
    · exact absurd h (by simp)
    · dsimp only at h
      split at h
      · exact absurd h (by simp)
      · rename_i n hn
        split at h
        · exact absurd h (by simp)
        · split at h
          · exact absurd h (by simp)
          · rename_i charge hch
            split at h
            · exact absurd h (by simp)
            · split at h
              · exact absurd h (by simp)
              · split at h
                · exact absurd h (by simp)
                · rename_i sa hsa
                  simp only [Option.some.injEq] at h
                  rw [← h]
                  simp only [save_total_staked, save_total_shares]
                  unfold num_shares_from_staked_amount_rounded_down at hn
                  split at hn
                  · exact absurd hn (by simp)
                  · rename_i hstaked
                    simp only [Option.some.injEq] at hn
                    unfold staked_amount_from_num_shares_rounded_down at hch
                    split at hch
                    · exact absurd hch (by simp)
                    · rename_i hshares
                      rw [staked_up_save] at hsa
                      unfold staked_amount_from_num_shares_rounded_up at hsa
                      rw [if_neg hshares] at hsa
                      simp only [Option.some.injEq] at hsa
                      have hstaked' : 0 < c.total_staked_balance :=
                        Nat.pos_of_ne_zero hstaked
                      have hshares' : 0 < c.total_stake_shares :=
                        Nat.pos_of_ne_zero hshares
                      have hn_le : c.total_stake_shares * amount /
                          c.total_staked_balance ≤ amount :=
                        floor_frac_le hps hstaked'
                      have hn_eq : n = c.total_stake_shares * amount /
                          c.total_staked_balance := by
                        have hmod : c.total_stake_shares * amount /
                            c.total_staked_balance % U128LIM =
                            c.total_stake_shares * amount / c.total_staked_balance :=
                          Nat.mod_eq_of_lt (by omega)
                        rw [← hn, hmod]
                      have hmul_le : c.total_staked_balance * n ≤
                          amount * c.total_stake_shares := by
                        rw [hn_eq, Nat.mul_comm amount c.total_stake_shares]
                        calc c.total_staked_balance *
                              (c.total_stake_shares * amount / c.total_staked_balance)
                            = c.total_stake_shares * amount / c.total_staked_balance *
                              c.total_staked_balance := Nat.mul_comm _ _
                          _ ≤ c.total_stake_shares * amount := Nat.div_mul_le_self _ _
                      have hsa0_le : (c.total_staked_balance * n +
                          (c.total_stake_shares - 1)) / c.total_stake_shares ≤ amount := by
                        have h1 : c.total_staked_balance * n +
                            (c.total_stake_shares - 1) =
                            c.total_staked_balance * n + c.total_stake_shares - 1 := by
                          omega
                        rw [h1]
                        exact ceilDiv_le hshares' hmul_le
                      have hsa_eq : sa = (c.total_staked_balance * n +
                          (c.total_stake_shares - 1)) / c.total_stake_shares := by
                        have hmod : (c.total_staked_balance * n +
                            (c.total_stake_shares - 1)) / c.total_stake_shares %
                            U128LIM = (c.total_staked_balance * n +
                            (c.total_stake_shares - 1)) / c.total_stake_shares :=
                          Nat.mod_eq_of_lt (by omega)
                        rw [← hsa, hmod]
                      have hadd1 : satAdd c.total_stake_shares n =
                          c.total_stake_shares + n := satAdd_eq_of_lt (by omega)
                      have hadd2 : satAdd c.total_staked_balance sa =
                          c.total_staked_balance + sa := satAdd_eq_of_lt (by omega)
                      rw [hadd1, hadd2, hsa_eq]
                      exact stake_price_core hshares'
  · intro h hps hb hpos
    unfold inner_unstake at h
    split at h
    · exact absurd h (by simp)
    · dsimp only at h
      split at h
      · exact absurd h (by simp)
      · rename_i hstaked
        split at h
        · exact absurd h (by simp)
        · rename_i n hn
          split at h
          · exact absurd h (by simp)
          · split at h
            · exact absurd h (by simp)
            · split at h
              · exact absurd h (by simp)
              · rename_i rcv hrcv
                split at h
                · exact absurd h (by simp)
                · split at h
                  · exact absurd h (by simp)
                  · rename_i u hu
                    simp only [Option.some.injEq] at h
                    rw [← h] at hpos ⊢
                    simp only [save_total_staked, save_total_shares] at hpos ⊢
                    rw [staked_down_save] at hu
                    unfold staked_amount_from_num_shares_rounded_down at hu
                    split at hu
                    · exact absurd hu (by simp)
                    · rename_i hshares
                      simp only [Option.some.injEq] at hu
                      have hshares' : 0 < c.total_stake_shares :=
                        Nat.pos_of_ne_zero hshares
                      have hn_lt_shares : n < c.total_stake_shares := by
                        unfold satSub at hpos
                        omega
                      have hu0_le : c.total_staked_balance * n /
                          c.total_stake_shares ≤ c.total_staked_balance := by
                        calc c.total_staked_balance * n / c.total_stake_shares
                            ≤ c.total_staked_balance * c.total_stake_shares /
                              c.total_stake_shares :=
                              Nat.div_le_div_right
                                (Nat.mul_le_mul_left _ (le_of_lt hn_lt_shares))
                          _ = c.total_staked_balance :=
                              Nat.mul_div_cancel c.total_staked_balance hshares'
                      have hu_eq : u = c.total_staked_balance * n /
                          c.total_stake_shares := by
                        have hmod : c.total_staked_balance * n /
                            c.total_stake_shares % U128LIM =
                            c.total_staked_balance * n / c.total_stake_shares :=
                          Nat.mod_eq_of_lt (by omega)
                        rw [← hu, hmod]
                      unfold satSub
                      rw [hu_eq]
                      exact unstake_price_core
  · intro h hps hb hnum htb
    unfold internal_ping at h
    split at h
    · simp only [Option.some.injEq, Prod.mk.injEq] at h
      rw [← h.1]
    · dsimp only at h
      set tb := satSub (satAdd locked_balance account_balance) attached_deposit
        with htb_def
      split at h
      · exact absurd h (by simp)
      · split at h
        · simp only [Option.some.injEq, Prod.mk.injEq] at h
          rw [← h.1]
        · rename_i hrw0
          split at h
          · exact absurd h (by simp)
          · rename_i hden
            set rwd := satSub tb c.last_total_balance with hrwd_def
            set fee := c.reward_fee_num * rwd / c.reward_fee_den with hfee_def
            set rem := satSub rwd fee with hrem_def
            have hden' : 0 < c.reward_fee_den := Nat.pos_of_ne_zero hden
            have hrwd_lt : rwd < 2 ^ 126 := by
              rw [hrwd_def]
              unfold satSub
              omega
            have hfee_le : fee ≤ rwd := by
              rw [hfee_def]
              calc c.reward_fee_num * rwd / c.reward_fee_den
                  ≤ c.reward_fee_den * rwd / c.reward_fee_den :=
                    Nat.div_le_div_right (Nat.mul_le_mul_right rwd hnum)
                _ = rwd := Nat.mul_div_cancel_left rwd hden'
            have hrem_le : rem ≤ rwd := by
              rw [hrem_def]
              exact satSub_le _ _
            have hmid_eq : satAdd c.total_staked_balance rem =
                c.total_staked_balance + rem := satAdd_eq_of_lt (by omega)
            split at h
            · exact absurd h (by simp)
            · rename_i ns hns
              unfold num_shares_from_staked_amount_rounded_down at hns
              dsimp only at hns
              rw [hmid_eq] at hns
              split at hns
              · exact absurd hns (by simp)
              · rename_i hmid0
                simp only [Option.some.injEq] at hns
                have hmid_pos : 0 < c.total_staked_balance + rem :=
                  Nat.pos_of_ne_zero hmid0
                have hns0_le : c.total_stake_shares * fee /
                    (c.total_staked_balance + rem) ≤ fee :=
                  floor_frac_le (by omega) hmid_pos
                have hns_eq : ns = c.total_stake_shares * fee /
                    (c.total_staked_balance + rem) := by
                  have hmod : c.total_stake_shares * fee /
                      (c.total_staked_balance + rem) % U128LIM =
                      c.total_stake_shares * fee / (c.total_staked_balance + rem) :=
                    Nat.mod_eq_of_lt (by omega)
                  rw [← hns, hmod]
                split at h
                · rename_i hns0
                  simp only [Option.some.injEq, Prod.mk.injEq] at h
                  rw [← h.1]
                  simp only [save_total_staked, save_total_shares]
                  rw [hmid_eq]
                  have hadd1 : satAdd c.total_stake_shares ns =
                      c.total_stake_shares + ns := satAdd_eq_of_lt (by omega)
                  have hadd2 : satAdd (c.total_staked_balance + rem) fee =
                      c.total_staked_balance + rem + fee := satAdd_eq_of_lt (by omega)
                  rw [hadd1, hadd2, hns_eq]
                  exact ping_price_core
                · simp only [Option.some.injEq, Prod.mk.injEq] at h
                  rw [← h.1]
                  dsimp only
                  rw [hmid_eq]
                  refine Nat.mul_le_mul_right c.total_stake_shares ?_
                  exact le_trans (by omega) (le_satAdd fee (by omega))

/-- C1 witness: a concrete stake step (30 tokens at price 1 on a pool of 100)
keeps the exact rational share price non-decreasing. -/
theorem c1_share_price_monotone_witness :
    (⟨100, 100, 100, 0, false, 0, 0, 1, [(7, ⟨50, 0, 0⟩)]⟩ :
        StakingContract).total_staked_balance *
      (⟨130, 130, 100, 0, false, 0, 0, 1, [(7, ⟨20, 30, 0⟩)]⟩ :
        StakingContract).total_stake_shares ≤
    (⟨130, 130, 100, 0, false, 0, 0, 1, [(7, ⟨20, 30, 0⟩)]⟩ :
        StakingContract).total_staked_balance *
      (⟨100, 100, 100, 0, false, 0, 0, 1, [(7, ⟨50, 0, 0⟩)]⟩ :
        StakingContract).total_stake_shares :=
  (c1_share_price_monotone ⟨100, 100, 100, 0, false, 0, 0, 1, [(7, ⟨50, 0, 0⟩)]⟩
    ⟨130, 130, 100, 0, false, 0, 0, 1, [(7, ⟨20, 30, 0⟩)]⟩ 7 0 0 0 0 30 false).2.1
    (by decide) (by decide) (by decide) (by decide)

/-- C1 counterexample to the claim as stated: a deposit/ping/stake sequence
reaching the `u128` saturation boundary on which a stake step strictly
decreases the exact rational share price between two consecutive states with
positive `total_stake_shares` — the pool's total cannot grow past
`2 ^ 128 - 1` while the share count still does. -/
theorem c1_saturation_price_drop :
    internal_ping ⟨1, 1, 1, 0, false, 0, 0, 1, []⟩ 1 (2 ^ 128 - 1) 0 0 =
      some (⟨2 ^ 128 - 1, 1, 2 ^ 128 - 1, 1, false, 0, 0, 1, []⟩, true) ∧
    internal_deposit ⟨2 ^ 128 - 1, 1, 2 ^ 128 - 1, 1, false, 0, 0, 1, []⟩ 7
        (2 ^ 128 - 1) =
      some ⟨2 ^ 128 - 1, 1, 2 ^ 128 - 1, 1, false, 0, 0, 1,
        [(7, ⟨2 ^ 128 - 1, 0, 0⟩)]⟩ ∧
    internal_stake ⟨2 ^ 128 - 1, 1, 2 ^ 128 - 1, 1, false, 0, 0, 1,
        [(7, ⟨2 ^ 128 - 1, 0, 0⟩)]⟩ 7 (2 ^ 128 - 1) =
      some ⟨2 ^ 128 - 1, 2, 2 ^ 128 - 1, 1, false, 0, 0, 1, [(7, ⟨0, 1, 0⟩)]⟩ ∧
    0 < (⟨2 ^ 128 - 1, 1, 2 ^ 128 - 1, 1, false, 0, 0, 1,
      [(7, ⟨2 ^ 128 - 1, 0, 0⟩)]⟩ : StakingContract).total_stake_shares ∧
    0 < (⟨2 ^ 128 - 1, 2, 2 ^ 128 - 1, 1, false, 0, 0, 1,
      [(7, ⟨0, 1, 0⟩)]⟩ : StakingContract).total_stake_shares ∧
    (⟨2 ^ 128 - 1, 2, 2 ^ 128 - 1, 1, false, 0, 0, 1,
        [(7, ⟨0, 1, 0⟩)]⟩ : StakingContract).total_staked_balance *
      (⟨2 ^ 128 - 1, 1, 2 ^ 128 - 1, 1, false, 0, 0, 1,
        [(7, ⟨2 ^ 128 - 1, 0, 0⟩)]⟩ : StakingContract).total_stake_shares <
    (⟨2 ^ 128 - 1, 1, 2 ^ 128 - 1, 1, false, 0, 0, 1,
        [(7, ⟨2 ^ 128 - 1, 0, 0⟩)]⟩ : StakingContract).total_staked_balance *
      (⟨2 ^ 128 - 1, 2, 2 ^ 128 - 1, 1, false, 0, 0, 1,
        [(7, ⟨0, 1, 0⟩)]⟩ : StakingContract).total_stake_shares := by
  refine ⟨by decide, by decide, by decide, by decide, by decide, by decide⟩

end StakingPool
